import Mathlib

/-!
Verification of the DNA sequence-analysis engine (`src/utils.py` of
tapan1404/DNA_Analysis) against its natural-language specification.

Sequences are modelled as `List Char` (the repository upper-cases every
sequence on input).  Python floats are modelled exactly: by `ℚ` where the
source only performs field operations, and by `ℝ` where the source takes a
square root (`statistics.pstdev`).  Python code that raises is modelled with
`Option`.
-/

namespace DNA

/-- The unambiguous nucleotide alphabet, the string `"ACGT"` of the source. -/
def ACGT : List Char := ['A', 'C', 'G', 'T']

/-- `IUPAC_VALID = set(list("ACGTNRYWSKMBDHV"))` from `src/utils.py`. -/
def IUPAC_VALID : List Char := ['A', 'C', 'G', 'T', 'N', 'R', 'Y', 'W', 'S', 'K', 'M', 'B', 'D', 'H', 'V']

/-- `gc_content(seq)` from `src/utils.py`:
`(seq.count("G") + seq.count("C")) / len(seq) * 100`.
Python raises `ZeroDivisionError` on an empty sequence (integer division by
`len(seq) == 0`); the raising outcome is modelled as `none`. -/
def gc_content (seq : List Char) : Option ℚ :=
  if seq.length = 0 then none
  else some ((seq.count 'G' + seq.count 'C' : ℚ) / seq.length * 100)

/-- The non-overlapping complete triplets of a sequence taken from offset 0:
the codons visited by `for i in range(0, len(seq)-2, 3): seq[i:i+3]`
(the Python loop runs while `i + 3 <= len(seq)`, so only complete triplets
appear and 1-2 trailing symbols are dropped). -/
def triplets : List Char → List (List Char)
  | a :: b :: c :: rest => [a, b, c] :: triplets rest
  | _ => []

/-- `re.fullmatch(r"[ACGT]{3}", codon)` from `codon_frequency`: the codon is
three symbols long and every symbol is unambiguous. -/
def isUnambiguousCodon (c : List Char) : Bool :=
  c.length == 3 && c.all (fun ch => ACGT.contains ch)

/-- The codons of `seq` that `codon_frequency` actually counts. -/
def validCodons (seq : List Char) : List (List Char) :=
  (triplets seq).filter isUnambiguousCodon

/-- `codon_frequency(seq)` from `src/utils.py`.  The Python `Counter` keeps
one key per distinct codon in order of first occurrence (`dedup` here), each
mapped to `count / total` where `total` is the sum of all counts.  When no
codon matches `[ACGT]{3}` the comprehension ranges over an empty `Counter`
and the empty mapping is returned (no division happens). -/
def codon_frequency (seq : List Char) : List (List Char × ℚ) :=
  let v := validCodons seq
  let total : ℚ := v.length
  v.dedup.map (fun c => (c, (v.count c : ℚ) / total))

/-- `motif_search(seq, motif)` from `src/utils.py`:
`[m.start()+1 for m in re.finditer(f"(?={motif})", seq)]`.
For a motif that is a literal string (the spec treats every motif as literal
text), the zero-width lookahead `(?={motif})` matches at exactly those indices
`i ∈ {0, …, len(seq)}` where the motif is a prefix of the suffix of `seq`
beginning at `i`; Python scans these indices left to right.  Note that the
scan includes the position at the very end of the string, where an empty
motif still matches. -/
def motif_search (seq motif : List Char) : List Nat :=
  ((List.range (seq.length + 1)).filter (fun i => motif.isPrefixOf (seq.drop i))).map (· + 1)

/-- One SNP record `{"pos": …, "ref": …, "alt": …}` of `simple_snp_diff`. -/
structure SNP where
  pos : Nat
  ref : Char
  alt : Char
deriving DecidableEq

/-- The result record of `simple_snp_diff`. -/
structure SNPDiffResult where
  checked_bases : Nat
  snp_count : Nat
  snps_preview : List SNP
deriving DecidableEq

/-- `simple_snp_diff(seq, ref, max_len=5000)` from `src/utils.py`.  It visits
positions `0 ≤ i < L` with `L = min(len(seq), len(ref), max_len)`, records a
SNP when both symbols are valid IUPAC codes, differ, and both are unambiguous,
and returns `L` as `checked_bases`, the uncapped SNP count, and the preview
capped at 1000 entries.  (All reads are in bounds, so the `getD` default is
never used.) -/
def simple_snp_diff (seq ref : List Char) (max_len : Nat) : SNPDiffResult :=
  let L := min (min seq.length ref.length) max_len
  let snps := (List.range L).filterMap (fun i =>
    let a := seq.getD i '?'
    let b := ref.getD i '?'
    if IUPAC_VALID.contains a && IUPAC_VALID.contains b && a != b
        && ACGT.contains a && ACGT.contains b
    then some ⟨i + 1, b, a⟩ else none)
  ⟨L, snps.length, snps.take 1000⟩

/-- The standard genetic code on unambiguous codons, as used by Biopython's
default translation table (`Seq.translate`): each `ACGT` triplet is mapped to
its amino-acid letter, with the three stop codons TAA, TAG, TGA mapped to the
stop symbol `*`.  Non-`ACGT` triplets fall through to `X`; `codonAA` is only
ever applied to full IUPAC expansions, which are `ACGT` triplets. -/
def codonAA : List Char → Char
  | ['T', 'T', 'T'] => 'F' | ['T', 'T', 'C'] => 'F' | ['T', 'T', 'A'] => 'L' | ['T', 'T', 'G'] => 'L'
  | ['C', 'T', 'T'] => 'L' | ['C', 'T', 'C'] => 'L' | ['C', 'T', 'A'] => 'L' | ['C', 'T', 'G'] => 'L'
  | ['A', 'T', 'T'] => 'I' | ['A', 'T', 'C'] => 'I' | ['A', 'T', 'A'] => 'I' | ['A', 'T', 'G'] => 'M'
  | ['G', 'T', 'T'] => 'V' | ['G', 'T', 'C'] => 'V' | ['G', 'T', 'A'] => 'V' | ['G', 'T', 'G'] => 'V'
  | ['T', 'C', 'T'] => 'S' | ['T', 'C', 'C'] => 'S' | ['T', 'C', 'A'] => 'S' | ['T', 'C', 'G'] => 'S'
  | ['C', 'C', 'T'] => 'P' | ['C', 'C', 'C'] => 'P' | ['C', 'C', 'A'] => 'P' | ['C', 'C', 'G'] => 'P'
  | ['A', 'C', 'T'] => 'T' | ['A', 'C', 'C'] => 'T' | ['A', 'C', 'A'] => 'T' | ['A', 'C', 'G'] => 'T'
  | ['G', 'C', 'T'] => 'A' | ['G', 'C', 'C'] => 'A' | ['G', 'C', 'A'] => 'A' | ['G', 'C', 'G'] => 'A'
  | ['T', 'A', 'T'] => 'Y' | ['T', 'A', 'C'] => 'Y' | ['T', 'A', 'A'] => '*' | ['T', 'A', 'G'] => '*'
  | ['C', 'A', 'T'] => 'H' | ['C', 'A', 'C'] => 'H' | ['C', 'A', 'A'] => 'Q' | ['C', 'A', 'G'] => 'Q'
  | ['A', 'A', 'T'] => 'N' | ['A', 'A', 'C'] => 'N' | ['A', 'A', 'A'] => 'K' | ['A', 'A', 'G'] => 'K'
  | ['G', 'A', 'T'] => 'D' | ['G', 'A', 'C'] => 'D' | ['G', 'A', 'A'] => 'E' | ['G', 'A', 'G'] => 'E'
  | ['T', 'G', 'T'] => 'C' | ['T', 'G', 'C'] => 'C' | ['T', 'G', 'A'] => '*' | ['T', 'G', 'G'] => 'W'
  | ['C', 'G', 'T'] => 'R' | ['C', 'G', 'C'] => 'R' | ['C', 'G', 'A'] => 'R' | ['C', 'G', 'G'] => 'R'
  | ['A', 'G', 'T'] => 'S' | ['A', 'G', 'C'] => 'S' | ['A', 'G', 'A'] => 'R' | ['A', 'G', 'G'] => 'R'
  | ['G', 'G', 'T'] => 'G' | ['G', 'G', 'C'] => 'G' | ['G', 'G', 'A'] => 'G' | ['G', 'G', 'G'] => 'G'
  | _ => 'X'

/-- The unambiguous nucleotides an IUPAC symbol can stand for. -/
def iupacExpand : Char → List Char
  | 'A' => ['A'] | 'C' => ['C'] | 'G' => ['G'] | 'T' => ['T']
  | 'R' => ['A', 'G'] | 'Y' => ['C', 'T'] | 'W' => ['A', 'T'] | 'S' => ['C', 'G']
  | 'K' => ['G', 'T'] | 'M' => ['A', 'C'] | 'B' => ['C', 'G', 'T'] | 'D' => ['A', 'G', 'T']
  | 'H' => ['A', 'C', 'T'] | 'V' => ['A', 'C', 'G'] | 'N' => ['A', 'C', 'G', 'T']
  | _ => []

/-- All unambiguous `ACGT` codons an (possibly ambiguous) codon can stand for. -/
def expandCodon : List Char → List (List Char)
  | [] => [[]]
  | ch :: rest => (((iupacExpand ch).map (fun x => (expandCodon rest).map (fun t => x :: t)))).flatten

/-- Biopython's translation of one codon as far as the source observes it.
`Seq.translate` appends the stop symbol `*` exactly when every IUPAC
expansion of the codon is a stop codon (ambiguous stop codons such as TAR
and TRA included); a codon whose expansions all give the same amino acid
gives that amino acid, and anything else gives a non-stop placeholder
(Biopython may report `X`/`B`/`Z` there, but never `*`, and
`premature_stop_flags` only ever tests for `*`). -/
def translateCodon (c : List Char) : Char :=
  match expandCodon c with
  | [] => 'X'
  | e :: rest => if rest.all (fun e2 => codonAA e2 == codonAA e) then codonAA e else 'X'

/-- `Seq(seq[frame:]).translate(to_stop=False)` from `premature_stop_flags`:
translate the complete codons of the frame-shifted sequence (Biopython warns
about but drops a trailing partial codon; translation runs past stops). -/
def translateFrame (seq : List Char) (frame : Nat) : List Char :=
  (triplets (seq.drop frame)).map translateCodon

/-- One `{"frame": …, "first_stop_nt": …}` record of `premature_stop_flags`. -/
structure ORFFlag where
  frame : Nat
  first_stop_nt : Nat
deriving DecidableEq

/-- `premature_stop_flags(seq, min_orf=150)` from `src/utils.py`: for each
frame 0, 1, 2 it collects the indices of `*` in the translated frame
(`stops`), and when `stops` is non-empty with `stops[0]*3 < min_orf` appends
`{"frame": frame, "first_stop_nt": stops[0]*3+frame+1}` (the Python guard
`if stops and stops[0]*3 < min_orf` reads only the head of `stops`, `head?`
here). -/
def premature_stop_flags (seq : List Char) (min_orf : Nat) : List ORFFlag :=
  [0, 1, 2].filterMap (fun frame =>
    let prot := translateFrame seq frame
    let stops := (List.range prot.length).filter (fun i => prot.getD i 'X' == '*')
    match stops.head? with
    | none => none
    | some s => if s * 3 < min_orf then some ⟨frame, s * 3 + frame + 1⟩ else none)

/-- Index of the first stop symbol in a translated frame (the specification's
`first_stop_position_in_codons`). -/
def firstStar : List Char → Option Nat
  | [] => none
  | c :: r => if c = '*' then some 0 else (firstStar r).map (· + 1)

/-- A concrete sequence for the claim's premature-stop scenario: thirty `A`s
followed by the stop codon TAA, whose first frame-0 stop codon sits at
nucleotide offset 30 (codon index 10); frames 1 and 2 contain no stop. -/
def exampleORFSeq : List Char := List.replicate 30 'A' ++ ['T', 'A', 'A']

/-- Python's `range(0, stop, step)` for `step ≥ 1`: the multiples of `step`
below `stop`, i.e. the first `ceil(stop/step)` of them.  (The source never
calls it with `step = 0`, which raises `ValueError` in Python.) -/
def pyRange (stop step : Nat) : List Nat :=
  (List.range ((stop + step - 1) / step)).map (· * step)

/-- One `{"start": …, "end": …, "gc": …}` window record of `sliding_gc`. -/
structure GCWindow where
  start : Nat
  end_ : Nat
  gc : ℚ
deriving DecidableEq

/-- GC percentage of one chunk:
`(chunk.count("G")+chunk.count("C"))/len(chunk)*100`. -/
def gcPercent (chunk : List Char) : ℚ :=
  (chunk.count 'G' + chunk.count 'C' : ℚ) / chunk.length * 100

/-- `sliding_gc(seq, win=500)` from `src/utils.py`: for `i` in
`range(0, len(seq), win)` it emits the window of `chunk = seq[i:i+win]` with
1-based bounds `start = i+1`, `end = i+len(chunk)`.  Every visited `i` is
below `len(seq)`, so the chunk is never empty and the source's
`if not chunk: break` guard never fires (hence no counterpart here). -/
def sliding_gc (seq : List Char) (win : Nat) : List GCWindow :=
  (pyRange seq.length win).map (fun i =>
    let chunk := (seq.drop i).take win
    { start := i + 1, end_ := i + chunk.length, gc := gcPercent chunk })

/-- A Python dict with string keys and float values, modelled as an
insertion-ordered association list. -/
abbrev PyDict := List (String × ℝ)

/-- The heap of dict objects: Python dicts are mutable heap values, so
`gc_outliers` is modelled over an explicit store, with dicts addressed by
their index in the store. -/
abbrev Store := List PyDict

/-- Reading `w["gc"]`; every window dict the source passes carries its keys,
so a missing key (a Python `KeyError`) defaults to 0 here. -/
noncomputable def dictGet (d : PyDict) (k : String) : ℝ :=
  (d.lookup k).getD 0

/-- Python `d[k] = v`: update the entry in place when the key is present
(keeping its position), else append a new entry. -/
noncomputable def dictSet : PyDict → String → ℝ → PyDict
  | [], k, v => [(k, v)]
  | (k2, v2) :: rest, k, v =>
    if k2 = k then (k, v) :: rest else (k2, v2) :: dictSet rest k v

/-- `statistics.mean`: the arithmetic mean. -/
noncomputable def pyMean (l : List ℝ) : ℝ := l.sum / l.length

/-- `statistics.pstdev`: square root of the population variance. -/
noncomputable def pstdev (l : List ℝ) : ℝ :=
  Real.sqrt ((l.map (fun x => (x - pyMean l) ^ 2)).sum / l.length)

/-- `pstdev(arr) or 1e-9` from `gc_outliers`: Python replaces a zero (falsy)
standard deviation by the epsilon. -/
noncomputable def sdOrEps (l : List ℝ) : ℝ :=
  if pstdev l = 0 then 1e-9 else pstdev l

/-- `arr = [w["gc"] for w in gc_windows]`, read from the store. -/
noncomputable def gcArr (store : Store) (ws : List Nat) : List ℝ :=
  ws.map (fun a => dictGet (store.getD a []) "gc")

/-- One iteration of the `for w in gc_windows` loop of `gc_outliers`: compute
`zsc = (w["gc"]-mu)/sd`; when `abs(zsc) >= z`, run `w2 = w.copy()`,
`w2["z"] = zsc`, `out.append(w2)` — allocating the fresh copied dict at a new
address at the end of the store. -/
noncomputable def gcOutliersStep (z mu sd : ℝ) (acc : Store × List Nat) (a : Nat) :
    Store × List Nat :=
  let w := acc.1.getD a []
  let zsc := (dictGet w "gc" - mu) / sd
  if z ≤ |zsc| then
    (acc.1 ++ [dictSet w "z" zsc], acc.2 ++ [acc.1.length])
  else acc

/-- `gc_outliers(gc_windows, z=2.5)` from `src/utils.py`, over the dict heap:
the input is the store together with the addresses of the window dicts, the
output the final store and the addresses of the emitted outlier copies.  With
fewer than 3 windows it returns the empty list at once (the store untouched);
otherwise mean and population standard deviation come from the `gc` values
read before the loop, with a zero deviation replaced by `1e-9`. -/
noncomputable def gc_outliers (store : Store) (ws : List Nat) (z : ℝ) : Store × List Nat :=
  if ws.length < 3 then (store, [])
  else
    let arr := gcArr store ws
    let mu := pyMean arr
    let sd := sdOrEps arr
    ws.foldl (gcOutliersStep z mu sd) (store, [])

/-- The store only ever grows by allocation at the end. -/
def StoreExtends (s t : Store) : Prop := ∃ u, t = s ++ u

/-- Number of leading `N` symbols of a list. -/
def leadN : List Char → Nat
  | [] => 0
  | c :: r => if c = 'N' then leadN r + 1 else 0

/-- One `{"start": …, "end": …, "length": …}` run record of the `n_runs`
field (1-based inclusive bounds). -/
structure NRun where
  start : Nat
  end_ : Nat
  length : Nat
deriving DecidableEq

/-- The scan behind `re.finditer(r"N{5,}", seq)` in `find_ambiguous_bases`:
walk the string left to right; at a non-`N` advance one symbol; at an `N`
swallow the whole maximal run of consecutive `N`s (the regex quantifier is
greedy, and `finditer` is non-overlapping and leftmost-first), record it when
its length is at least 5 — `m.start()+1`, `m.end()` and the length — and
continue right after it.  The fuel argument (`seq.length` at the top call)
only justifies termination: every step consumes at least one symbol. -/
def nRunsAux : Nat → List Char → Nat → List NRun
  | 0, _, _ => []
  | _ + 1, [], _ => []
  | fuel + 1, c :: r, pos =>
    if c = 'N' then
      let k := leadN r + 1
      (if 5 ≤ k then [⟨pos + 1, pos + k, k⟩] else []) ++
        nRunsAux fuel (r.drop (leadN r)) (pos + k)
    else nRunsAux fuel r (pos + 1)

/-- The `n_runs` list of `find_ambiguous_bases`. -/
def nRuns (seq : List Char) : List NRun := nRunsAux seq.length seq 0

/-- The result record of `find_ambiguous_bases`. -/
structure AmbiguityReport where
  ambiguous_positions : List Nat
  ambiguous_total : Nat
  iupac_counts : List (Char × Nat)
  n_runs : List NRun
deriving DecidableEq

/-- `find_ambiguous_bases(seq)` from `src/utils.py`: the 1-based positions of
symbols outside ACGT (preview capped at 1000, total uncapped), the per-symbol
counts of the distinct non-ACGT symbols (Python iterates `set(seq)` in an
unspecified order; first-occurrence order here — no claim touches the order),
and the greedy `N{5,}` maximal-run scan. -/
def find_ambiguous_bases (seq : List Char) : AmbiguityReport :=
  let bad := (seq.enum.filter (fun p => !(ACGT.contains p.2))).map (fun p => p.1 + 1)
  { ambiguous_positions := bad.take 1000,
    ambiguous_total := bad.length,
    iupac_counts :=
      (seq.dedup.filter (fun c => !(ACGT.contains c))).map (fun c => (c, seq.count c)),
    n_runs := nRuns seq }

/-- The symbol at 0-based index `i` is an `N` (false out of bounds, since the
default `'.'` is not `'N'`). -/
def NAt (l : List Char) (i : Nat) : Prop := l.getD i '.' = 'N'

/-- `(s, k)` delimits a maximal run of `N`s in `l`: `k ≥ 1` consecutive `N`s
from 0-based index `s`, neither preceded nor followed by another `N`. -/
def MaximalNRun (l : List Char) (s k : Nat) : Prop :=
  0 < k ∧ (∀ i, i < k → NAt l (s + i)) ∧ (s = 0 ∨ ¬ NAt l (s - 1)) ∧ ¬ NAt l (s + k)

end DNA

/-! ### Helper lemmas -/

namespace DNA

/-- Unfolding of `List.isPrefixOf` into a length bound and pointwise equality
of symbols (stated with `getD`; the bound keeps every access in range). -/
theorem isPrefixOf_iff_getD (m : List Char) : ∀ l : List Char,
    m.isPrefixOf l = true ↔
      (m.length ≤ l.length ∧ ∀ j, j < m.length → m.getD j '?' = l.getD j '?') := by
  induction m with
  | nil =>
    intro l
    simp [List.isPrefixOf]
  | cons a as ih =>
    intro l
    cases l with
    | nil => simp [List.isPrefixOf]
    | cons b bs =>
      simp only [List.isPrefixOf, Bool.and_eq_true, beq_iff_eq, ih bs]
      constructor
      · rintro ⟨rfl, hlen, hpt⟩
        refine ⟨by simpa using hlen, ?_⟩
        intro j hj
        cases j with
        | zero => simp
        | succ j => simpa using hpt j (by simpa using hj)
      · rintro ⟨hlen, hpt⟩
        have h0 := hpt 0 (by simp)
        refine ⟨by simpa using h0, by simpa using hlen, ?_⟩
        intro j hj
        simpa using hpt (j + 1) (by simpa using hj)

/-- `getD` after `drop` reads the original list at a shifted index. -/
theorem getD_drop_eq (d : Char) : ∀ (i : Nat) (l : List Char) (j : Nat),
    (l.drop i).getD j d = l.getD (i + j) d := by
  intro i
  induction i with
  | zero => intro l j; simp
  | succ i ih =>
    intro l j
    cases l with
    | nil => simp
    | cons c r =>
      have hidx : i + 1 + j = (i + j) + 1 := by omega
      rw [hidx, List.drop_succ_cons, List.getD_cons_succ]
      exact ih r j

/-- A `filterMap` whose function is an if-then-some-else-none produces the
image of the filtered list. -/
theorem filterMap_if_eq_map_filter (p : Nat → Bool) (f : Nat → SNP) (l : List Nat) :
    l.filterMap (fun i => if p i then some (f i) else none) = (l.filter p).map f := by
  induction l with
  | nil => rfl
  | cons a l ih =>
    by_cases h : p a
    · simp [List.filterMap_cons, List.filter_cons, h, ih]
    · simp [List.filterMap_cons, List.filter_cons, h, ih]

/-- Bool-level form of the contains/membership correspondence. -/
theorem contains_eq_true_iff (a : Char) (l : List Char) : l.contains a = true ↔ a ∈ l :=
  List.elem_iff

/-- Boolean absorption used for C2: when `b1` implies `a1` and `b2` implies
`a2`, the five-fold conjunction collapses to the three-fold one. -/
theorem and_absorb_aux (a1 a2 b1 b2 x : Bool) (h1 : b1 = true → a1 = true)
    (h2 : b2 = true → a2 = true) :
    (a1 && a2 && x && b1 && b2) = (b1 && b2 && x) := by
  cases b1 <;> cases b2 <;> cases x <;> cases a1 <;> cases a2 <;> simp_all

/-- Every unambiguous nucleotide is a valid IUPAC symbol. -/
theorem ACGT_subset_IUPAC {a : Char} (h : a ∈ ACGT) : a ∈ IUPAC_VALID := by
  simp only [ACGT, List.mem_cons, List.not_mem_nil, or_false] at h
  rcases h with rfl | rfl | rfl | rfl <;> decide

/-- The head of the filtered list of stop indices built by
`premature_stop_flags` is the index of the first stop symbol. -/
theorem stops_head_eq_firstStar (l : List Char) :
    ((List.range l.length).filter (fun i => l.getD i 'X' == '*')).head? = firstStar l := by
  induction l with
  | nil => rfl
  | cons c r ih =>
    rw [show (c :: r).length = r.length + 1 from rfl, List.range_succ_eq_map]
    by_cases hc : c = '*'
    · subst hc
      simp [List.filter_cons, firstStar]
    · have hpred : (fun i => (c :: r).getD i 'X' == '*') ∘ (· + 1)
          = fun i => r.getD i 'X' == '*' := by
        funext i
        simp [List.getD_cons_succ]
      rw [List.filter_cons]
      have hc0 : ((c :: r).getD 0 'X' == '*') = false := by
        simpa using hc
      rw [hc0, if_neg (by decide)]
      rw [List.filter_map, hpred, List.head?_map, ih]
      simp [firstStar, hc]

/-- There is at least one window index when the sequence is non-empty. -/
theorem ceil_div_pos {len win : Nat} (hw : 1 ≤ win) (hl : 1 ≤ len) :
    1 ≤ (len + win - 1) / win :=
  (Nat.le_div_iff_mul_le (by omega)).mpr (by omega)

/-- A window index below the ceiling-division count starts inside the
sequence. -/
theorem mul_lt_of_lt_ceil {len win k : Nat} (hw : 1 ≤ win) (h : k < (len + win - 1) / win) :
    k * win < len := by
  have h1 : k + 1 ≤ (len + win - 1) / win := h
  have h2 : (k + 1) * win ≤ len + win - 1 := (Nat.le_div_iff_mul_le (by omega)).mp h1
  have h3 : (k + 1) * win = k * win + win := by ring
  omega

/-- The windows cover the whole sequence: `ceil(len/win) * win ≥ len`. -/
theorem len_le_mul_ceil {len win : Nat} (hw : 1 ≤ win) :
    len ≤ ((len + win - 1) / win) * win := by
  by_cases hlen : len = 0
  · simp [hlen]
  · have h1 : ¬ ((len + win - 1) / win + 1 ≤ (len + win - 1) / win) := by omega
    have h2 : ¬ (((len + win - 1) / win + 1) * win ≤ len + win - 1) := fun hc =>
      h1 ((Nat.le_div_iff_mul_le (by omega)).mpr hc)
    have h3 : ((len + win - 1) / win + 1) * win = ((len + win - 1) / win) * win + win := by ring
    omega

/-- The number of windows `sliding_gc` emits. -/
theorem sliding_gc_length (seq : List Char) (win : Nat) :
    (sliding_gc seq win).length = (seq.length + win - 1) / win := by
  simp [sliding_gc, pyRange]

/-- The `k`-th window of `sliding_gc` in closed form. -/
theorem sliding_gc_getD (seq : List Char) (win k : Nat) (d : GCWindow)
    (h : k < (sliding_gc seq win).length) :
    (sliding_gc seq win).getD k d =
      { start := k * win + 1,
        end_ := k * win + min win (seq.length - k * win),
        gc := gcPercent ((seq.drop (k * win)).take win) } := by
  rw [List.getD_eq_getElem _ _ h]
  have hk : k < (pyRange seq.length win).length := by
    simpa [sliding_gc] using h
  simp only [sliding_gc, List.getElem_map]
  have hpr : (pyRange seq.length win)[k] = k * win := by
    simp [pyRange]
  rw [hpr]
  simp [List.length_take, List.length_drop]

/-- Store extension is reflexive. -/
theorem storeExtends_refl (s : Store) : StoreExtends s s := ⟨[], by simp⟩

/-- Store extension is transitive. -/
theorem storeExtends_trans {s t u : Store} (h1 : StoreExtends s t) (h2 : StoreExtends t u) :
    StoreExtends s u := by
  obtain ⟨x, rfl⟩ := h1
  obtain ⟨y, rfl⟩ := h2
  exact ⟨x ++ y, by simp⟩

/-- Allocating one dict extends the store. -/
theorem storeExtends_snoc (s : Store) (d : PyDict) : StoreExtends s (s ++ [d]) := ⟨[d], rfl⟩

/-- Extension never shrinks a store. -/
theorem storeExtends_length {s t : Store} (h : StoreExtends s t) : s.length ≤ t.length := by
  obtain ⟨u, rfl⟩ := h
  simp

/-- A dict already in the store is untouched by extension. -/
theorem storeExtends_getD {s t : Store} (h : StoreExtends s t) (a : Nat) (ha : a < s.length) :
    t.getD a [] = s.getD a [] := by
  obtain ⟨u, rfl⟩ := h
  exact List.getD_append s u [] a ha

/-- The freshly allocated dict sits at the old length. -/
theorem getD_snoc_length (s : Store) (d : PyDict) : (s ++ [d]).getD s.length [] = d := by
  rw [List.getD_append_right s [d] [] s.length (le_refl _)]
  simp

/-- Invariant of the `gc_outliers` loop: the store only grows, and every
address in the output list is either inherited from the accumulator or a
fresh address holding the copy-with-`z` of one of the visited windows. -/
theorem gcFold_inv (z mu sd : ℝ) (store0 : Store) :
    ∀ l : List Nat, (∀ a ∈ l, a < store0.length) →
    ∀ acc : Store × List Nat, StoreExtends store0 acc.1 →
      StoreExtends acc.1 (l.foldl (gcOutliersStep z mu sd) acc).1 ∧
      (∀ b ∈ (l.foldl (gcOutliersStep z mu sd) acc).2,
        b ∈ acc.2 ∨
          (acc.1.length ≤ b ∧ ∃ a ∈ l,
            (l.foldl (gcOutliersStep z mu sd) acc).1.getD b [] =
              dictSet (store0.getD a []) "z"
                ((dictGet (store0.getD a []) "gc" - mu) / sd))) := by
  intro l
  induction l with
  | nil =>
    intro _ acc _
    exact ⟨storeExtends_refl _, fun b hb => Or.inl hb⟩
  | cons a l ih =>
    intro hlt acc hext
    have ha : a < store0.length := hlt a (List.mem_cons_self a l)
    have hread : acc.1.getD a [] = store0.getD a [] := storeExtends_getD hext a ha
    rw [List.foldl_cons]
    by_cases hz : z ≤ |(dictGet (acc.1.getD a []) "gc" - mu) / sd|
    · have hacc : gcOutliersStep z mu sd acc a =
          (acc.1 ++ [dictSet (acc.1.getD a []) "z" ((dictGet (acc.1.getD a []) "gc" - mu) / sd)],
           acc.2 ++ [acc.1.length]) := by
        simp only [gcOutliersStep, if_pos hz]
      rw [hacc]
      have hext2 : StoreExtends store0
          (acc.1 ++ [dictSet (acc.1.getD a []) "z" ((dictGet (acc.1.getD a []) "gc" - mu) / sd)]) :=
        storeExtends_trans hext (storeExtends_snoc _ _)
      obtain ⟨ihext, ihout⟩ := ih (fun x hx => hlt x (List.mem_cons_of_mem a hx))
        (acc.1 ++ [dictSet (acc.1.getD a []) "z" ((dictGet (acc.1.getD a []) "gc" - mu) / sd)],
         acc.2 ++ [acc.1.length]) hext2
      constructor
      · exact storeExtends_trans (storeExtends_snoc _ _) ihext
      · intro b hb
        rcases ihout b hb with hbin | ⟨hge, x, hxl, heq⟩
        · rcases List.mem_append.mp hbin with hold | hnew
          · exact Or.inl hold
          · have hb_eq : b = acc.1.length := by simpa using hnew
            refine Or.inr ⟨by omega, a, List.mem_cons_self a l, ?_⟩
            have hblt : b < (acc.1 ++
                [dictSet (acc.1.getD a []) "z"
                  ((dictGet (acc.1.getD a []) "gc" - mu) / sd)]).length := by
              simp [hb_eq]
            rw [storeExtends_getD ihext b hblt, hb_eq, getD_snoc_length, hread]
        · refine Or.inr ⟨?_, x, List.mem_cons_of_mem a hxl, heq⟩
          simp only [List.length_append, List.length_cons, List.length_nil] at hge
          omega
    · have hacc : gcOutliersStep z mu sd acc a = acc := by
        simp only [gcOutliersStep, if_neg hz]
      rw [hacc]
      obtain ⟨ihext, ihout⟩ := ih (fun x hx => hlt x (List.mem_cons_of_mem a hx)) acc hext
      refine ⟨ihext, ?_⟩
      intro b hb
      rcases ihout b hb with hbin | ⟨hge, x, hxl, heq⟩
      · exact Or.inl hbin
      · exact Or.inr ⟨hge, x, List.mem_cons_of_mem a hxl, heq⟩

/-- Nothing is an `N` in the empty list. -/
theorem NAt_nil (i : Nat) : ¬ NAt [] i := by
  simp [NAt]

/-- Head case of `NAt`. -/
theorem NAt_cons_zero (c : Char) (r : List Char) : NAt (c :: r) 0 ↔ c = 'N' := by
  simp [NAt]

/-- Tail case of `NAt`. -/
theorem NAt_cons_succ (c : Char) (r : List Char) (i : Nat) :
    NAt (c :: r) (i + 1) ↔ NAt r i := by
  simp [NAt]

/-- `NAt` through `drop` reads the original list at a shifted index. -/
theorem NAt_drop (l : List Char) (m j : Nat) : NAt (l.drop m) j ↔ NAt l (m + j) := by
  unfold NAt
  rw [getD_drop_eq '.' m l j]

/-- The first `leadN l` symbols are `N`s and the next one is not. -/
theorem leadN_spec (l : List Char) :
    (∀ i, i < leadN l → NAt l i) ∧ ¬ NAt l (leadN l) := by
  induction l with
  | nil =>
    refine ⟨fun i hi => absurd hi (by simp [leadN]), NAt_nil _⟩
  | cons c r ih =>
    by_cases hc : c = 'N'
    · subst hc
      have hlead : leadN ('N' :: r) = leadN r + 1 := by simp [leadN]
      rw [hlead]
      constructor
      · intro i hi
        cases i with
        | zero => exact (NAt_cons_zero _ _).mpr rfl
        | succ j => exact (NAt_cons_succ _ _ _).mpr (ih.1 j (by omega))
      · rw [NAt_cons_succ]
        exact ih.2
    · have hlead : leadN (c :: r) = 0 := by simp [leadN, hc]
      rw [hlead]
      refine ⟨fun i hi => absurd hi (by omega), ?_⟩
      rw [NAt_cons_zero]
      exact hc

/-- Maximal runs in a dropped suffix are maximal runs of the whole list, as
long as they do not start at the very cut point. -/
theorem maximalNRun_drop (l : List Char) (m s k : Nat) (hs : 1 ≤ s) :
    MaximalNRun (l.drop m) s k ↔ MaximalNRun l (m + s) k := by
  unfold MaximalNRun
  constructor
  · rintro ⟨hk, hrun, hleft, hright⟩
    refine ⟨hk, ?_, ?_, ?_⟩
    · intro i hi
      have h := hrun i hi
      rw [NAt_drop] at h
      have : m + (s + i) = m + s + i := by omega
      rwa [this] at h
    · rcases hleft with h0 | hnot
      · omega
      · refine Or.inr ?_
        rw [NAt_drop] at hnot
        have : m + (s - 1) = m + s - 1 := by omega
        rwa [this] at hnot
    · rw [NAt_drop] at hright
      have : m + (s + k) = m + s + k := by omega
      rwa [this] at hright
  · rintro ⟨hk, hrun, hleft, hright⟩
    refine ⟨hk, ?_, ?_, ?_⟩
    · intro i hi
      have h := hrun i hi
      rw [NAt_drop]
      have : m + (s + i) = m + s + i := by omega
      rwa [this]
    · rcases hleft with h0 | hnot
      · omega
      · refine Or.inr ?_
        rw [NAt_drop]
        have : m + (s - 1) = m + s - 1 := by omega
        rwa [this]
    · rw [NAt_drop]
      have : m + (s + k) = m + s + k := by omega
      rwa [this]

/-- Shifting a maximal run across a non-`N` head symbol. -/
theorem maximalNRun_cons_shift (c : Char) (r : List Char) (s k : Nat) (hc : c ≠ 'N') :
    MaximalNRun (c :: r) (s + 1) k ↔ MaximalNRun r s k := by
  unfold MaximalNRun
  constructor
  · rintro ⟨hk, hrun, hleft, hright⟩
    refine ⟨hk, ?_, ?_, ?_⟩
    · intro i hi
      have h := hrun i hi
      have : s + 1 + i = (s + i) + 1 := by omega
      rw [this, NAt_cons_succ] at h
      exact h
    · cases s with
      | zero => exact Or.inl rfl
      | succ t =>
        rcases hleft with h0 | hnot
        · omega
        · refine Or.inr ?_
          have : t + 1 + 1 - 1 = t + 1 := by omega
          rw [this, NAt_cons_succ] at hnot
          simpa using hnot
    · have : s + 1 + k = (s + k) + 1 := by omega
      rw [this, NAt_cons_succ] at hright
      exact hright
  · rintro ⟨hk, hrun, hleft, hright⟩
    refine ⟨hk, ?_, ?_, ?_⟩
    · intro i hi
      have : s + 1 + i = (s + i) + 1 := by omega
      rw [this, NAt_cons_succ]
      exact hrun i hi
    · refine Or.inr ?_
      cases s with
      | zero =>
        simpa [NAt_cons_zero] using hc
      | succ t =>
        rcases hleft with h0 | hnot
        · omega
        · have : t + 1 + 1 - 1 = t + 1 := by omega
          rw [this, NAt_cons_succ]
          simpa using hnot
    · have : s + 1 + k = (s + k) + 1 := by omega
      rw [this, NAt_cons_succ]
      exact hright

/-- Membership in the run scan: a record is produced exactly for the maximal
runs of at least 5 `N`s, with 1-based bounds shifted by the scan position. -/
theorem nRunsAux_mem (r0 : NRun) :
    ∀ (fuel : Nat) (l : List Char) (pos : Nat), l.length ≤ fuel →
      (r0 ∈ nRunsAux fuel l pos ↔
        ∃ s k, 5 ≤ k ∧ MaximalNRun l s k ∧
          r0 = ⟨pos + s + 1, pos + s + k, k⟩) := by
  intro fuel
  induction fuel with
  | zero =>
    intro l pos hl
    have hnil : l = [] := List.eq_nil_of_length_eq_zero (Nat.le_zero.mp hl)
    subst hnil
    constructor
    · intro h
      exact absurd h (by simp [nRunsAux])
    · rintro ⟨s, k, hk5, hmax, _⟩
      exact absurd (hmax.2.1 0 hmax.1) (NAt_nil (s + 0))
  | succ fuel ih =>
    intro l pos hl
    cases l with
    | nil =>
      constructor
      · intro h
        exact absurd h (by simp [nRunsAux])
      · rintro ⟨s, k, hk5, hmax, _⟩
        exact absurd (hmax.2.1 0 hmax.1) (NAt_nil (s + 0))
    | cons c r =>
      by_cases hc : c = 'N'
      · subst hc
        have hlead : leadN ('N' :: r) = leadN r + 1 := by simp [leadN]
        have hF1 : ∀ i, i < leadN r + 1 → NAt ('N' :: r) i := by
          have h := (leadN_spec ('N' :: r)).1
          rwa [hlead] at h
        have hF2 : ¬ NAt ('N' :: r) (leadN r + 1) := by
          have h := (leadN_spec ('N' :: r)).2
          rwa [hlead] at h
        have hdropEq : r.drop (leadN r) = ('N' :: r).drop (leadN r + 1) := by
          rw [List.drop_succ_cons]
        have hunf : nRunsAux (fuel + 1) ('N' :: r) pos =
            (if 5 ≤ leadN r + 1 then
              [⟨pos + 1, pos + (leadN r + 1), leadN r + 1⟩] else []) ++
              nRunsAux fuel (r.drop (leadN r)) (pos + (leadN r + 1)) := by
          simp [nRunsAux]
        have hfuel : (r.drop (leadN r)).length ≤ fuel := by
          simp only [List.length_cons] at hl
          simp only [List.length_drop]
          omega
        rw [hunf, List.mem_append, ih (r.drop (leadN r)) (pos + (leadN r + 1)) hfuel]
        constructor
        · rintro (hif | ⟨s', k, hk5, hmax', hr0⟩)
          · by_cases h5 : 5 ≤ leadN r + 1
            · rw [if_pos h5] at hif
              have hr0 : r0 = ⟨pos + 1, pos + (leadN r + 1), leadN r + 1⟩ := by
                simpa using hif
              refine ⟨0, leadN r + 1, h5,
                ⟨by omega, fun i hi => by simpa using hF1 i hi, Or.inl rfl,
                  by simpa using hF2⟩, ?_⟩
              rw [hr0]
              simp
            · rw [if_neg h5] at hif
              simp at hif
          · have hs' : 1 ≤ s' := by
              by_contra hzero
              have hs0 : s' = 0 := by omega
              subst hs0
              have h0 := hmax'.2.1 0 hmax'.1
              rw [hdropEq, NAt_drop] at h0
              exact hF2 (by simpa using h0)
            rw [hdropEq, maximalNRun_drop ('N' :: r) (leadN r + 1) s' k hs'] at hmax'
            refine ⟨leadN r + 1 + s', k, hk5, hmax', ?_⟩
            rw [hr0]
            rw [NRun.mk.injEq]
            exact ⟨by omega, by omega, rfl⟩
        · rintro ⟨s, k, hk5, hmax, hr0⟩
          cases s with
          | zero =>
            have hk_eq : k = leadN r + 1 := by
              by_contra hne
              rcases Nat.lt_or_ge k (leadN r + 1) with hlt | hge
              · exact hmax.2.2.2 (by simpa using hF1 k hlt)
              · have hlt2 : leadN r + 1 < k := by omega
                exact hF2 (by simpa using hmax.2.1 (leadN r + 1) hlt2)
            subst hk_eq
            left
            rw [if_pos hk5]
            rw [hr0]
            simp
          | succ t =>
            have hsge : leadN r + 1 < t + 1 := by
              by_contra hle
              have hnot : ¬ NAt ('N' :: r) t := by
                rcases hmax.2.2.1 with h0 | h
                · omega
                · simpa using h
              exact hnot (hF1 t (by omega))
            right
            refine ⟨t + 1 - (leadN r + 1), k, hk5, ?_, ?_⟩
            · have hs'pos : 1 ≤ t + 1 - (leadN r + 1) := by omega
              rw [hdropEq, maximalNRun_drop ('N' :: r) (leadN r + 1) _ k hs'pos]
              have harith : leadN r + 1 + (t + 1 - (leadN r + 1)) = t + 1 := by omega
              rw [harith]
              exact hmax
            · rw [hr0]
              rw [NRun.mk.injEq]
              exact ⟨by omega, by omega, rfl⟩
      · have hunf : nRunsAux (fuel + 1) (c :: r) pos = nRunsAux fuel r (pos + 1) := by
          simp [nRunsAux, hc]
        have hfuel : r.length ≤ fuel := by
          simp only [List.length_cons] at hl
          omega
        rw [hunf, ih r (pos + 1) hfuel]
        constructor
        · rintro ⟨s, k, hk5, hmax, hr0⟩
          refine ⟨s + 1, k, hk5, (maximalNRun_cons_shift c r s k hc).mpr hmax, ?_⟩
          rw [hr0]
          rw [NRun.mk.injEq]
          exact ⟨by omega, by omega, rfl⟩
        · rintro ⟨s, k, hk5, hmax, hr0⟩
          cases s with
          | zero =>
            have h0 := hmax.2.1 0 hmax.1
            exact absurd ((NAt_cons_zero c r).mp (by simpa using h0)) hc
          | succ t =>
            refine ⟨t, k, hk5, (maximalNRun_cons_shift c r t k hc).mp hmax, ?_⟩
            rw [hr0]
            rw [NRun.mk.injEq]
            exact ⟨by omega, by omega, rfl⟩

/-- Every record the scan produces starts after the current position. -/
theorem nRunsAux_lb :
    ∀ (fuel : Nat) (l : List Char) (pos : Nat), ∀ u ∈ nRunsAux fuel l pos, pos + 1 ≤ u.start := by
  intro fuel
  induction fuel with
  | zero =>
    intro l pos u hu
    simp [nRunsAux] at hu
  | succ fuel ih =>
    intro l pos u hu
    cases l with
    | nil => simp [nRunsAux] at hu
    | cons c r =>
      by_cases hc : c = 'N'
      · subst hc
        rw [show nRunsAux (fuel + 1) ('N' :: r) pos =
            (if 5 ≤ leadN r + 1 then
              [⟨pos + 1, pos + (leadN r + 1), leadN r + 1⟩] else []) ++
              nRunsAux fuel (r.drop (leadN r)) (pos + (leadN r + 1)) from by
          simp [nRunsAux]] at hu
        rw [List.mem_append] at hu
        rcases hu with h1 | h2
        · by_cases h5 : 5 ≤ leadN r + 1
          · rw [if_pos h5] at h1
            have hu' : u = ⟨pos + 1, pos + (leadN r + 1), leadN r + 1⟩ := by simpa using h1
            subst hu'
            simp
          · rw [if_neg h5] at h1
            simp at h1
        · have h := ih (r.drop (leadN r)) (pos + (leadN r + 1)) u h2
          omega
      · rw [show nRunsAux (fuel + 1) (c :: r) pos = nRunsAux fuel r (pos + 1) from by
          simp [nRunsAux, hc]] at hu
        have h := ih r (pos + 1) u hu
        omega

/-- The run records are emitted leftmost-first and non-overlapping: each run
ends strictly before the next one starts. -/
theorem nRunsAux_sorted :
    ∀ (fuel : Nat) (l : List Char) (pos : Nat),
      (nRunsAux fuel l pos).Pairwise (fun u v => u.end_ < v.start) := by
  intro fuel
  induction fuel with
  | zero =>
    intro l pos
    simp [nRunsAux]
  | succ fuel ih =>
    intro l pos
    cases l with
    | nil => simp [nRunsAux]
    | cons c r =>
      by_cases hc : c = 'N'
      · subst hc
        rw [show nRunsAux (fuel + 1) ('N' :: r) pos =
            (if 5 ≤ leadN r + 1 then
              [⟨pos + 1, pos + (leadN r + 1), leadN r + 1⟩] else []) ++
              nRunsAux fuel (r.drop (leadN r)) (pos + (leadN r + 1)) from by
          simp [nRunsAux]]
        rw [List.pairwise_append]
        refine ⟨?_, ih _ _, ?_⟩
        · by_cases h5 : 5 ≤ leadN r + 1 <;> simp [h5]
        · intro a ha b hb
          by_cases h5 : 5 ≤ leadN r + 1
          · rw [if_pos h5] at ha
            have ha' : a = ⟨pos + 1, pos + (leadN r + 1), leadN r + 1⟩ := by simpa using ha
            subst ha'
            have hb' := nRunsAux_lb fuel (r.drop (leadN r)) (pos + (leadN r + 1)) b hb
            show pos + (leadN r + 1) < b.start
            omega
          · rw [if_neg h5] at ha
            simp at ha
      · rw [show nRunsAux (fuel + 1) (c :: r) pos = nRunsAux fuel r (pos + 1) from by
          simp [nRunsAux, hc]]
        exact ih r (pos + 1)

end DNA

/-! ### Claim theorems -/

namespace DNA

/-- C9: `gc_content(seq)` equals `(count(G)+count(C))/len(seq)*100` for every
non-empty sequence, and fails with a division-by-zero error (modelled as
`none`) on the empty sequence — it never returns a number for it. -/
theorem gc_content_spec (seq : List Char) :
    (seq = [] → gc_content seq = none) ∧
    (seq ≠ [] → gc_content seq =
      some ((seq.count 'G' + seq.count 'C' : ℚ) / seq.length * 100)) := by
  constructor
  · rintro rfl; rfl
  · intro h
    have hlen : seq.length ≠ 0 := by simpa using h
    simp [gc_content, hlen]

/-- C9 witness: the theorem applied to the concrete sequence `"GC"`. -/
theorem gc_content_spec_witness :
    (('G' :: 'C' :: []) ≠ []) ∧ gc_content ('G' :: 'C' :: []) =
      some (((('G' :: 'C' :: []).count 'G' + ('G' :: 'C' :: []).count 'C' : ℚ)) /
        (('G' :: 'C' :: []).length) * 100) :=
  ⟨by decide, (gc_content_spec ('G' :: 'C' :: [])).2 (by decide)⟩

/-- C3: whenever the sequence contains at least one unambiguous codon among
its non-overlapping triplets from offset 0, the values of `codon_frequency`
sum to exactly 1 (the model computes with exact rationals, so the
floating-point epsilon of the spec is 0 here); when no such codon exists
(in particular for sequences shorter than 3 symbols, whose triplet list is
empty) the returned mapping is empty.  Ambiguous codons are skipped by
`validCodons` and never enter the total. -/
theorem codon_frequency_sum (seq : List Char) :
    (validCodons seq ≠ [] → ((codon_frequency seq).map Prod.snd).sum = 1) ∧
    (validCodons seq = [] → codon_frequency seq = []) := by
  constructor
  · intro h
    have hlen : (0 : ℚ) < (validCodons seq).length := by
      have : validCodons seq ≠ [] := h
      have hpos : 0 < (validCodons seq).length := List.length_pos.mpr this
      exact_mod_cast hpos
    simp only [codon_frequency, List.map_map]
    have hcomp : (Prod.snd ∘ fun c => (c, ((validCodons seq).count c : ℚ) / ((validCodons seq).length : ℚ)))
        = fun c => ((validCodons seq).count c : ℚ) / ((validCodons seq).length : ℚ) := rfl
    rw [hcomp]
    have hdiv : (fun c => ((validCodons seq).count c : ℚ) / ((validCodons seq).length : ℚ))
        = fun c => ((validCodons seq).count c : ℚ) * (((validCodons seq).length : ℚ))⁻¹ := by
      funext c; rw [div_eq_mul_inv]
    rw [hdiv, List.sum_map_mul_right]
    have hsum : ((validCodons seq).dedup.map fun c => ((validCodons seq).count c : ℚ)).sum
        = ((validCodons seq).length : ℚ) := by
      have hmaps : ((validCodons seq).dedup.map fun c => ((validCodons seq).count c : ℚ))
          = (((validCodons seq).dedup.map fun c => (validCodons seq).count c).map
              (fun n : ℕ => (n : ℚ))) := by rw [List.map_map]; rfl
      rw [hmaps, ← Nat.cast_list_sum]
      have hnat : ((validCodons seq).dedup.map fun c => (validCodons seq).count c).sum
          = (validCodons seq).length := by
        rw [lawful_beq_subsingleton List.instBEq instBEqOfDecidableEq]
        exact List.sum_map_count_dedup_eq_length (validCodons seq)
      exact_mod_cast hnat
    rw [hsum, mul_inv_cancel₀ (ne_of_gt hlen)]
  · intro h
    simp [codon_frequency, h]

/-- C3 witness: the theorem applied to the concrete sequence `"ACG"`, which
has exactly one unambiguous codon. -/
theorem codon_frequency_sum_witness :
    (validCodons ('A' :: 'C' :: 'G' :: []) ≠ []) ∧
    ((codon_frequency ('A' :: 'C' :: 'G' :: [])).map Prod.snd).sum = 1 :=
  ⟨by decide, (codon_frequency_sum ('A' :: 'C' :: 'G' :: [])).1 (by decide)⟩

/-- C4 counterexample: on the sequence `"AAA"` an empty motif does NOT yield
an empty result.  The zero-width lookahead `(?=)` built by the source matches
at every scan position `0..len(seq)`, so the function returns `[1, 2, 3, 4]`. -/
theorem motif_search_empty_counterexample :
    motif_search ['A', 'A', 'A'] [] = [1, 2, 3, 4] ∧
    motif_search ['A', 'A', 'A'] [] ≠ [] := by
  constructor <;> decide

/-- C4 (amended): a motif of plain nucleotide letters that is longer than the
sequence yields an empty result rather than an error; an empty motif, however,
yields the list `[1, …, len(seq)+1]` of every scan position (one zero-width
match at each offset, including the end of the string), not the empty list. -/
theorem motif_search_degenerate (seq motif : List Char) :
    ((∀ c ∈ motif, c ∈ ACGT) → seq.length < motif.length → motif_search seq motif = []) ∧
    (motif_search seq [] = (List.range (seq.length + 1)).map (· + 1)) := by
  constructor
  · intro _ hlen
    have hfil : (List.range (seq.length + 1)).filter
        (fun i => motif.isPrefixOf (seq.drop i)) = [] := by
      rw [List.filter_eq_nil_iff]
      intro i _
      intro hpre
      have h := (isPrefixOf_iff_getD motif (seq.drop i)).mp hpre
      have hd : (seq.drop i).length ≤ seq.length := by
        rw [List.length_drop]; omega
      omega
    simp [motif_search, hfil]
  · have hfil : (List.range (seq.length + 1)).filter
        (fun i => ([] : List Char).isPrefixOf (seq.drop i)) = List.range (seq.length + 1) := by
      apply List.filter_eq_self.mpr
      intro i _
      cases hdrop : seq.drop i <;> simp [List.isPrefixOf]
    simp [motif_search, hfil]

/-- C4 witness: the theorem applied to sequence `"A"` and motif `"AA"`. -/
theorem motif_search_degenerate_witness :
    (∀ c ∈ ['A', 'A'], c ∈ ACGT) ∧ (['A'] : List Char).length < (['A', 'A'] : List Char).length ∧
    motif_search ['A'] ['A', 'A'] = [] :=
  ⟨by decide, by decide, (motif_search_degenerate ['A'] ['A', 'A']).1 (by decide) (by decide)⟩

/-- C5: for every sequence and non-empty literal motif of plain nucleotide
letters, `motif_search` returns exactly the 1-based start positions of all
(possibly overlapping) occurrences of the motif as a substring, in increasing
order; in particular `motif_search("AAA", "AA") = [1, 2]`. -/
theorem motif_search_occurrences :
    (∀ seq motif : List Char, motif ≠ [] → (∀ c ∈ motif, c ∈ ACGT) →
      (∀ p, p ∈ motif_search seq motif ↔
        (1 ≤ p ∧ (p - 1) + motif.length ≤ seq.length ∧
          ∀ j, j < motif.length → seq.getD ((p - 1) + j) '?' = motif.getD j '?')) ∧
      (motif_search seq motif).Pairwise (· < ·)) ∧
    motif_search ['A', 'A', 'A'] ['A', 'A'] = [1, 2] := by
  refine ⟨?_, by decide⟩
  intro seq motif hne _
  have hmlen : 1 ≤ motif.length := by
    cases motif with
    | nil => exact absurd rfl hne
    | cons c r => simp
  constructor
  · intro p
    constructor
    · intro hp
      simp only [motif_search, List.mem_map, List.mem_filter, List.mem_range] at hp
      obtain ⟨i, ⟨hir, hpre⟩, rfl⟩ := hp
      have h := (isPrefixOf_iff_getD motif (seq.drop i)).mp hpre
      have hd : (seq.drop i).length = seq.length - i := List.length_drop i seq
      refine ⟨by omega, by omega, ?_⟩
      intro j hj
      have h2 := (h.2 j hj).symm
      rw [getD_drop_eq '?' i seq j] at h2
      have hidx : i + 1 - 1 + j = i + j := by omega
      rw [hidx]
      exact h2
    · rintro ⟨hp1, hplen, hpt⟩
      simp only [motif_search, List.mem_map, List.mem_filter, List.mem_range]
      refine ⟨p - 1, ⟨by omega, ?_⟩, by omega⟩
      apply (isPrefixOf_iff_getD motif (seq.drop (p - 1))).mpr
      have hd : (seq.drop (p - 1)).length = seq.length - (p - 1) := List.length_drop _ seq
      refine ⟨by omega, ?_⟩
      intro j hj
      rw [getD_drop_eq '?' (p - 1) seq j]
      exact (hpt j hj).symm
  · apply (List.pairwise_map).mpr
    apply List.Pairwise.filter
    have h := List.pairwise_lt_range (seq.length + 1)
    exact h.imp (by omega)

/-- C5 witness: the characterization applied at sequence `"AAA"`, motif
`"AA"`, position 1. -/
theorem motif_search_occurrences_witness :
    ((['A', 'A'] : List Char) ≠ []) ∧ (∀ c ∈ ['A', 'A'], c ∈ ACGT) ∧
    (1 ∈ motif_search ['A', 'A', 'A'] ['A', 'A'] ↔
      (1 ≤ 1 ∧ (1 - 1) + (['A', 'A'] : List Char).length ≤ (['A', 'A', 'A'] : List Char).length ∧
        ∀ j, j < (['A', 'A'] : List Char).length →
          (['A', 'A', 'A'] : List Char).getD ((1 - 1) + j) '?' = (['A', 'A'] : List Char).getD j '?')) :=
  ⟨by decide, by decide,
    ((motif_search_occurrences.1 ['A', 'A', 'A'] ['A', 'A'] (by decide) (by decide)).1 1)⟩

/-- C2: `simple_snp_diff` returns `checked_bases = min(len(seq), len(ref),
max_len)` — the number of positions visited, even when some visited positions
are skipped as ambiguous — and `snp_count` counts exactly the visited
positions where both symbols are unambiguous `{A,C,G,T}` letters and differ
(the extra `IUPAC_VALID` tests of the source are redundant there); in
particular `simple_snp_diff("ACGT", "ACGA", 10)` gives
`{checked_bases: 4, snp_count: 1, snps_preview: [{pos: 4, ref: 'A', alt: 'T'}]}`. -/
theorem simple_snp_diff_spec :
    (∀ (seq ref : List Char) (max_len : Nat),
      (simple_snp_diff seq ref max_len).checked_bases = min (min seq.length ref.length) max_len ∧
      (simple_snp_diff seq ref max_len).snp_count =
        ((List.range (min (min seq.length ref.length) max_len)).filter
          (fun i => ACGT.contains (seq.getD i '?') && ACGT.contains (ref.getD i '?')
            && (seq.getD i '?' != ref.getD i '?'))).length) ∧
    simple_snp_diff ['A', 'C', 'G', 'T'] ['A', 'C', 'G', 'A'] 10 = ⟨4, 1, [⟨4, 'A', 'T'⟩]⟩ := by
  refine ⟨?_, by decide⟩
  intro seq ref max_len
  refine ⟨rfl, ?_⟩
  have hcount : (simple_snp_diff seq ref max_len).snp_count =
      ((List.range (min (min seq.length ref.length) max_len)).filter
        (fun i => IUPAC_VALID.contains (seq.getD i '?') && IUPAC_VALID.contains (ref.getD i '?')
          && (seq.getD i '?' != ref.getD i '?')
          && ACGT.contains (seq.getD i '?') && ACGT.contains (ref.getD i '?'))).length := by
    simp only [simple_snp_diff]
    rw [filterMap_if_eq_map_filter
      (fun i => IUPAC_VALID.contains (seq.getD i '?') && IUPAC_VALID.contains (ref.getD i '?')
        && (seq.getD i '?' != ref.getD i '?')
        && ACGT.contains (seq.getD i '?') && ACGT.contains (ref.getD i '?'))
      (fun i => ⟨i + 1, ref.getD i '?', seq.getD i '?'⟩)]
    rw [List.length_map]
  rw [hcount]
  congr 1
  apply List.filter_congr
  intro i _
  exact and_absorb_aux _ _ _ _ _
    (fun hb => (contains_eq_true_iff _ _).mpr (ACGT_subset_IUPAC ((contains_eq_true_iff _ _).mp hb)))
    (fun hb => (contains_eq_true_iff _ _).mpr (ACGT_subset_IUPAC ((contains_eq_true_iff _ _).mp hb)))

/-- C1: a frame emits a flag if and only if its translation contains a stop
symbol whose first occurrence `s` satisfies `s*3 < min_orf`, and the flag's
`first_stop_nt` is `s*3 + frame + 1`; frames with no stop, or a late first
stop, emit nothing.  The sequence hypothesis restricts to valid IUPAC symbols
(on anything else Biopython's `translate` raises instead of returning).  In
particular, on a sequence whose first frame-0 stop codon starts at nucleotide
offset 30 (codon index 10) and whose other frames have no stop, `min_orf=150`
yields exactly `[{frame: 0, first_stop_nt: 31}]`. -/
theorem premature_stop_flags_spec :
    (∀ (seq : List Char) (min_orf : Nat) (fl : ORFFlag),
      (∀ c ∈ seq, c ∈ IUPAC_VALID) →
      (fl ∈ premature_stop_flags seq min_orf ↔
        fl.frame < 3 ∧ ∃ s, firstStar (translateFrame seq fl.frame) = some s ∧
          s * 3 < min_orf ∧ fl.first_stop_nt = s * 3 + fl.frame + 1)) ∧
    (firstStar (translateFrame exampleORFSeq 0) = some 10 ∧
      premature_stop_flags exampleORFSeq 150 = [⟨0, 31⟩]) := by
  constructor
  · intro seq min_orf fl _
    simp only [premature_stop_flags, List.mem_filterMap]
    constructor
    · rintro ⟨f, hf, hsome⟩
      rw [stops_head_eq_firstStar (translateFrame seq f)] at hsome
      cases hstar : firstStar (translateFrame seq f) with
      | none => rw [hstar] at hsome; simp at hsome
      | some s =>
        rw [hstar] at hsome
        simp only at hsome
        by_cases hlt : s * 3 < min_orf
        · rw [if_pos hlt] at hsome
          have hfl : fl = ⟨f, s * 3 + f + 1⟩ := by
            exact (Option.some_injective _ hsome).symm
          subst hfl
          have hf3 : f < 3 := by
            simp only [List.mem_cons, List.not_mem_nil, or_false] at hf
            omega
          exact ⟨hf3, s, hstar, hlt, rfl⟩
        · rw [if_neg hlt] at hsome
          exact absurd hsome (by simp)
    · rintro ⟨hf3, s, hstar, hlt, hnt⟩
      refine ⟨fl.frame, ?_, ?_⟩
      · have : fl.frame = 0 ∨ fl.frame = 1 ∨ fl.frame = 2 := by omega
        rcases this with h | h | h <;> rw [h] <;> simp
      · rw [stops_head_eq_firstStar (translateFrame seq fl.frame), hstar]
        simp only [if_pos hlt]
        cases fl with
        | mk fr nt =>
          simp only at hnt
          rw [hnt]
  · constructor
    · decide
    · decide

/-- C1 witness: the characterization applied at the example sequence with
`min_orf = 150` and the emitted flag `{frame: 0, first_stop_nt: 31}`. -/
theorem premature_stop_flags_spec_witness :
    (∀ c ∈ exampleORFSeq, c ∈ IUPAC_VALID) ∧
    ((⟨0, 31⟩ : ORFFlag) ∈ premature_stop_flags exampleORFSeq 150 ↔
      (⟨0, 31⟩ : ORFFlag).frame < 3 ∧
        ∃ s, firstStar (translateFrame exampleORFSeq (⟨0, 31⟩ : ORFFlag).frame) = some s ∧
          s * 3 < 150 ∧ (⟨0, 31⟩ : ORFFlag).first_stop_nt = s * 3 + (⟨0, 31⟩ : ORFFlag).frame + 1) :=
  ⟨by decide, premature_stop_flags_spec.1 exampleORFSeq 150 ⟨0, 31⟩ (by decide)⟩

/-- C6: for every non-empty sequence and window size `w ≥ 1`, the windows of
`sliding_gc` partition the sequence exactly: the first window starts at 1,
each window's end is one less than the next window's start, the last
window's end is `len(seq)`, every window except possibly the last has length
exactly `w`, and the final (possibly shorter) window is always present —
its end reaching `len(seq)` — whenever the sequence is non-empty. -/
theorem sliding_gc_partition :
    ∀ (seq : List Char) (win : Nat) (ws : List GCWindow),
      seq ≠ [] → 1 ≤ win → ws = sliding_gc seq win →
      (ws ≠ [] ∧
       (ws.getD 0 ⟨0, 0, 0⟩).start = 1 ∧
       (∀ k, k + 1 < ws.length →
         (ws.getD k ⟨0, 0, 0⟩).end_ + 1 = (ws.getD (k + 1) ⟨0, 0, 0⟩).start) ∧
       (ws.getD (ws.length - 1) ⟨0, 0, 0⟩).end_ = seq.length ∧
       (∀ k, k + 1 < ws.length →
         (ws.getD k ⟨0, 0, 0⟩).end_ + 1 - (ws.getD k ⟨0, 0, 0⟩).start = win)) := by
  rintro seq win ws hne hw rfl
  have hl : 1 ≤ seq.length := List.length_pos.mpr hne
  have hq : 1 ≤ (seq.length + win - 1) / win := ceil_div_pos hw hl
  have hlen := sliding_gc_length seq win
  have hnil : sliding_gc seq win ≠ [] := by
    apply List.length_pos.mp
    omega
  refine ⟨hnil, ?_, ?_, ?_, ?_⟩
  · rw [sliding_gc_getD seq win 0 _ (by omega)]
    simp
  · intro k hk
    have hk1 : k < (sliding_gc seq win).length := by omega
    rw [sliding_gc_getD seq win k _ hk1, sliding_gc_getD seq win (k + 1) _ hk]
    have hlt : (k + 1) * win < seq.length :=
      mul_lt_of_lt_ceil hw (by omega)
    have h3 : (k + 1) * win = k * win + win := by ring
    have hmin : min win (seq.length - k * win) = win := by omega
    rw [hmin]
    simp only
    omega
  · have hk : (sliding_gc seq win).length - 1 < (sliding_gc seq win).length := by omega
    rw [sliding_gc_getD seq win _ _ hk]
    have hkq : (sliding_gc seq win).length - 1 < (seq.length + win - 1) / win := by omega
    have hlt : ((sliding_gc seq win).length - 1) * win < seq.length :=
      mul_lt_of_lt_ceil hw hkq
    have hcov : seq.length ≤ ((seq.length + win - 1) / win) * win := len_le_mul_ceil hw
    have h3 : (((sliding_gc seq win).length - 1) + 1) * win
        = ((sliding_gc seq win).length - 1) * win + win := by ring
    have hq1 : ((sliding_gc seq win).length - 1) + 1 = (seq.length + win - 1) / win := by omega
    rw [hq1] at h3
    simp only
    omega
  · intro k hk
    have hk1 : k < (sliding_gc seq win).length := by omega
    rw [sliding_gc_getD seq win k _ hk1]
    have hlt : (k + 1) * win < seq.length :=
      mul_lt_of_lt_ceil hw (by omega)
    have h3 : (k + 1) * win = k * win + win := by ring
    have hmin : min win (seq.length - k * win) = win := by omega
    rw [hmin]
    simp only
    omega

/-- C6 witness: the theorem applied to the sequence `"ACGTA"` with window
size 2 (three windows `[1,2] [3,4] [5,5]`); the projected consequence is
that the last window ends at the sequence length. -/
theorem sliding_gc_partition_witness :
    ((['A', 'C', 'G', 'T', 'A'] : List Char) ≠ [] ∧ 1 ≤ 2) ∧
    ((sliding_gc ['A', 'C', 'G', 'T', 'A'] 2).getD
        ((sliding_gc ['A', 'C', 'G', 'T', 'A'] 2).length - 1) ⟨0, 0, 0⟩).end_ =
      (['A', 'C', 'G', 'T', 'A'] : List Char).length :=
  ⟨⟨by decide, by decide⟩,
    (sliding_gc_partition ['A', 'C', 'G', 'T', 'A'] 2 _ (by decide) (by decide) rfl).2.2.2.1⟩

/-- C7: with fewer than 3 windows `gc_outliers` returns the empty list,
whatever the windows' GC values and whatever the z-threshold (the early
return also leaves the store untouched). -/
theorem gc_outliers_short (store : Store) (ws : List Nat) (z : ℝ) (h : ws.length < 3) :
    (gc_outliers store ws z).2 = [] ∧ (gc_outliers store ws z).1 = store := by
  constructor <;> simp [gc_outliers, h]

/-- C7 witness: the theorem applied to an empty window list. -/
theorem gc_outliers_short_witness :
    (([] : List Nat).length < 3) ∧ (gc_outliers [] [] (5 / 2)).2 = [] :=
  ⟨by decide, (gc_outliers_short [] [] (5 / 2) (by decide)).1⟩

/-- C10: `gc_outliers` never mutates its input: every dict present in the
store before the call — the input windows in particular — holds exactly the
same entries afterwards (so no input window gains a `z` key), and every
emitted outlier is a fresh address (allocated past the old store) holding a
copy of the corresponding input window with the `z` key set to its z-score. -/
theorem gc_outliers_frame (store : Store) (ws : List Nat) (z : ℝ)
    (hws : ∀ a ∈ ws, a < store.length) :
    (∀ a, a < store.length →
      (gc_outliers store ws z).1.getD a [] = store.getD a []) ∧
    (∀ b ∈ (gc_outliers store ws z).2,
      store.length ≤ b ∧ ∃ a ∈ ws,
        (gc_outliers store ws z).1.getD b [] =
          dictSet (store.getD a []) "z"
            ((dictGet (store.getD a []) "gc" - pyMean (gcArr store ws)) /
              sdOrEps (gcArr store ws))) := by
  by_cases h3 : ws.length < 3
  · have h := gc_outliers_short store ws z h3
    constructor
    · intro a _
      rw [h.2]
    · intro b hb
      rw [h.1] at hb
      simp at hb
  · have hunf : gc_outliers store ws z =
        ws.foldl (gcOutliersStep z (pyMean (gcArr store ws)) (sdOrEps (gcArr store ws)))
          (store, []) := by
      simp [gc_outliers, h3]
    have hmain := gcFold_inv z (pyMean (gcArr store ws)) (sdOrEps (gcArr store ws)) store
      ws hws (store, []) (storeExtends_refl store)
    rw [hunf]
    constructor
    · intro a ha
      exact storeExtends_getD hmain.1 a ha
    · intro b hb
      rcases hmain.2 b hb with hbin | ⟨hge, a, hal, heq⟩
      · simp at hbin
      · exact ⟨hge, a, hal, heq⟩

/-- C10 witness: the theorem applied to a one-dict store and an empty window
list; the pre-existing dict at address 0 is unchanged. -/
theorem gc_outliers_frame_witness :
    (∀ a ∈ ([] : List Nat), a < ([[("gc", (0 : ℝ))]] : Store).length) ∧
    (gc_outliers [[("gc", (0 : ℝ))]] [] 1).1.getD 0 [] =
      ([[("gc", (0 : ℝ))]] : Store).getD 0 [] :=
  ⟨by simp, (gc_outliers_frame [[("gc", (0 : ℝ))]] [] 1 (by simp)).1 0 (by simp)⟩

/-- C8: the `n_runs` field of `find_ambiguous_bases` lists exactly the
maximal runs of 5 or more consecutive `N` symbols (runs are runs of the
letter `N` only — no other ambiguity code matches `N{5,}`), each reported
with 1-based inclusive start and end and its length; the records come
non-overlapping and leftmost-first (each run ends strictly before the next
starts); and `find_ambiguous_bases("ACGTNNNNNN")["n_runs"]` is
`[{start: 5, end: 10, length: 6}]`. -/
theorem find_ambiguous_bases_n_runs :
    (∀ (seq : List Char) (u : NRun),
      u ∈ (find_ambiguous_bases seq).n_runs ↔
        ∃ s k, 5 ≤ k ∧ MaximalNRun seq s k ∧ u = ⟨s + 1, s + k, k⟩) ∧
    (∀ seq : List Char,
      ((find_ambiguous_bases seq).n_runs).Pairwise (fun u v => u.end_ < v.start)) ∧
    (find_ambiguous_bases ['A', 'C', 'G', 'T', 'N', 'N', 'N', 'N', 'N', 'N']).n_runs
      = [⟨5, 10, 6⟩] := by
  refine ⟨?_, ?_, by decide⟩
  · intro seq u
    have hn : (find_ambiguous_bases seq).n_runs = nRunsAux seq.length seq 0 := rfl
    rw [hn, nRunsAux_mem u seq.length seq 0 (le_refl _)]
    constructor
    · rintro ⟨s, k, hk5, hmax, hu⟩
      refine ⟨s, k, hk5, hmax, ?_⟩
      rw [hu, NRun.mk.injEq]
      exact ⟨by omega, by omega, rfl⟩
    · rintro ⟨s, k, hk5, hmax, hu⟩
      refine ⟨s, k, hk5, hmax, ?_⟩
      rw [hu, NRun.mk.injEq]
      exact ⟨by omega, by omega, rfl⟩
  · intro seq
    exact nRunsAux_sorted seq.length seq 0
